import Mathlib

/-!
Shallow embedding of the `oblq/art` Fuzzy ART engine (`fuzzy_art.go` and the
`internal/simd` kernel backends), with the arithmetic carried out over `ℚ`
(exact arithmetic in place of IEEE float64).

Slices of `float64` become `List ℚ`; the engine struct keeps the fields that
carry algorithmic state (`rho`, `alpha`, `beta`, `M`, `W`).  The per-call
activation list `T` is recomputed from `(W, A)` on every call in the Go code
(every entry is overwritten before it is read), so it is modelled as a value
computed per call rather than as persistent state.  In-place mutation of the
weight matrix becomes explicit state passing: operations return the updated
engine.
-/

namespace Art

/-- The transient activation record, `fuzzyActivation` in `fuzzy_art.go`:
fuzzy intersection `fi`, its L1 norm `fiNorm`, the L1 norm `wNorm` of the
category weights, the choice-function value `activation`, and the category
index `j`. -/
structure fuzzyActivation where
  fi : List ℚ
  fiNorm : ℚ
  wNorm : ℚ
  activation : ℚ
  j : ℕ
deriving DecidableEq, Repr

/-- The engine state, `FuzzyART` in `fuzzy_art.go`.  The worker pool, batch
size and wait group only schedule the (deterministic, disjoint-write)
parallel scoring loop, so they carry no algorithmic state and are omitted. -/
structure FuzzyART where
  rho : ℚ
  alpha : ℚ
  beta : ℚ
  M : ℕ
  W : List (List ℚ)
deriving DecidableEq, Repr

namespace generic

/-- Embedding of the portable backend `generic.FuzzyIntersectionNorm`:
one loop over the indices of `A` writing `min A[i] w[i]` into the output
buffer while accumulating its sum and the sum of `w[i]`.  Returns
`(fuzzyIntersectionOut, fiNorm, wNorm)`. -/
def FuzzyIntersectionNorm : List ℚ → List ℚ → List ℚ × ℚ × ℚ
  | a :: as, wi :: ws =>
    let r := FuzzyIntersectionNorm as ws
    (min a wi :: r.1, min a wi + r.2.1, wi + r.2.2)
  | _, _ => ([], 0, 0)

/-- Embedding of `generic.SumFloat64`: sum of all elements. -/
def SumFloat64 (arr : List ℚ) : ℚ := arr.sum

/-- Embedding of `generic.UpdateFuzzyWeights`:
`W[i] = beta*fi[i] + (1-beta)*W[i]` for each index of `W`. -/
def UpdateFuzzyWeights (W fi : List ℚ) (beta : ℚ) : List ℚ :=
  List.zipWith (fun wi fii => beta * fii + (1 - beta) * wi) W fi

end generic

/-- Embedding of `FuzzyART.complementCode`: `A` has length `2*len(a)` with
`A[i] = a[i]` and `A[i+len(a)] = 1 - a[i]`. -/
def complementCode (a : List ℚ) : List ℚ :=
  a ++ a.map (fun v => 1 - v)

/-- One iteration of the scoring loop in `activateCategories.categoryChoice`:
build the activation record of category `j` with prototype `w` against the
complement-coded input `A`. -/
def mkActivation (alpha : ℚ) (A : List ℚ) (j : ℕ) (w : List ℚ) : fuzzyActivation :=
  let r := generic.FuzzyIntersectionNorm A w
  { fi := r.1, fiNorm := r.2.1, wNorm := r.2.2
    activation := r.2.1 / (alpha + r.2.2), j := j }

/-- The comparator of `sortCategoriesByActivation` as a `≤`-style Boolean
relation: on equal activations the lower category index comes first (older
categories have priority), otherwise the higher activation comes first.
The Go comparator never returns 0 (records carry pairwise-distinct indices),
so `≤` on indices gives the same order as its strict `<`. -/
def activationLE (a b : fuzzyActivation) : Bool :=
  if a.activation = b.activation then decide (a.j ≤ b.j)
  else decide (b.activation < a.activation)

/-- Embedding of `FuzzyART.sortCategoriesByActivation`: sort the activation
list with the comparator above. -/
def sortCategoriesByActivation (T : List fuzzyActivation) : List fuzzyActivation :=
  T.mergeSort activationLE

/-- Embedding of `FuzzyART.activateCategories`: score every category of the
weight matrix against `A` (the batched parallel loop writes each record
exactly once, so the fan-out is modelled by a map over the indexed matrix),
then sort by activation. -/
def activateCategories (f : FuzzyART) (A : List ℚ) : List fuzzyActivation :=
  sortCategoriesByActivation (f.W.enum.map (fun p => mkActivation f.alpha A p.1 p.2))

/-- Embedding of `FuzzyART.resonance`: `fiNorm / aNorm`, except `1` when both
are zero. -/
def resonance (fiNorm aNorm : ℚ) : ℚ :=
  if fiNorm = 0 ∧ aNorm = 0 then 1 else fiNorm / aNorm

/-- Embedding of `FuzzyART.appendNewCategory` restricted to the weight
matrix: append `A` and return the new index. -/
def appendNewCategory (W : List (List ℚ)) (A : List ℚ) : List (List ℚ) × ℕ :=
  (W ++ [A], W.length)

/-- The loop of `FuzzyART.resonateOrReset`, walking the priority-ordered
activation list with the running `maxResonance` accumulator.  The first
record passing the vigilance test wins and its category's weights are
updated in place; if the list is exhausted a new category is appended and
the accumulated `maxResonance` is returned (the named return values of the
Go function). -/
def resonateWalk (f : FuzzyART) (A : List ℚ) (aNorm : ℚ) :
    List fuzzyActivation → ℚ → ℚ × ℕ × List (List ℚ)
  | [], maxRes =>
    let r := appendNewCategory f.W A
    (maxRes, r.2, r.1)
  | t :: ts, maxRes =>
    let res := resonance t.fiNorm aNorm
    if f.rho ≤ res then
      (res, t.j, f.W.set t.j (generic.UpdateFuzzyWeights (f.W.getD t.j []) t.fi f.beta))
    else
      resonateWalk f A aNorm ts (max maxRes res)

/-- Embedding of `FuzzyART.resonateOrReset`: compute `aNorm = sum(A)` once,
then walk the activation list with `maxResonance` starting at the zero
value. -/
def resonateOrReset (f : FuzzyART) (A : List ℚ) (T : List fuzzyActivation) :
    ℚ × ℕ × FuzzyART :=
  let r := resonateWalk f A (generic.SumFloat64 A) T 0
  (r.1, r.2.1, { f with W := r.2.2 })

/-- Embedding of `FuzzyART.Fit`: complement-code, score, decide. -/
def Fit (f : FuzzyART) (a : List ℚ) : ℚ × ℕ × FuzzyART :=
  let A := complementCode a
  resonateOrReset f A (activateCategories f A)

/-- Embedding of `FuzzyART.Predict`.  With `learn = false` the Go code reads
`f.T[0]`, which panics when there are no categories; the embedding returns
`none` there.  With `learn = true` it is the same path as `Fit`. -/
def Predict (f : FuzzyART) (a : List ℚ) (learn : Bool) :
    Option (ℚ × ℕ × FuzzyART) :=
  let A := complementCode a
  let T := activateCategories f A
  if learn then some (resonateOrReset f A T)
  else
    match T with
    | [] => none
    | t :: _ => some (resonance t.fiNorm (generic.SumFloat64 A), t.j, f)

/-- Embedding of `NewFuzzyART`: validate `rho ∈ [0,1]`, `alpha > 0`,
`beta ∈ (0,1]` in that order, reporting the offending parameter's name and
value; `inputLen` is stored unchecked.  The fresh engine has an empty weight
matrix. -/
def NewFuzzyART (inputLen : ℕ) (rho alpha beta : ℚ) :
    Except (String × ℚ) FuzzyART :=
  if rho < 0 ∨ 1 < rho then .error ("rho", rho)
  else if alpha ≤ 0 then .error ("alpha", alpha)
  else if beta ≤ 0 ∨ 1 < beta then .error ("beta", beta)
  else .ok { rho := rho, alpha := alpha, beta := beta, M := inputLen, W := [] }

namespace AVX512

/-- Embedding of `align64` in `avx512_amd64.go`: round the size up to the
nearest multiple of 8 (doubles per AVX-512 register). -/
def align64 (size : ℕ) : ℕ := ((size + 7) / 8) * 8

/-- Model of the C routine `avx512_sum` over the raw memory starting at the
array pointer: the kernel reduces the first `n` doubles of that memory
(16-wide chunks plus a scalar remainder loop); in exact arithmetic the
chunked reduction equals the plain sum of the first `n` memory cells. -/
def avx512_sum (n : ℕ) (mem : List ℚ) : ℚ := (mem.take n).sum

/-- Embedding of the Go wrapper `AVX512.SumFloat64`: it passes the rounded-up
length `align64(len(arr))` to the C kernel, so when the length is not a
multiple of 8 the kernel also reads the memory cells lying `beyond` the end
of the slice. -/
def SumFloat64 (arr beyond : List ℚ) : ℚ :=
  avx512_sum (align64 arr.length) (arr ++ beyond)

end AVX512

namespace Accelerate

/-- Model of `vDSP_vsmulD(a, 1, &s, out, 1, n)`: `out[i] = a[i] * s`. -/
def vsmulD (a : List ℚ) (s : ℚ) : List ℚ := a.map (fun v => v * s)

/-- Model of `vDSP_vsmaD(a, 1, &s, b, 1, out, 1, n)`: `out[i] = a[i]*s + b[i]`. -/
def vsmaD (a : List ℚ) (s : ℚ) (b : List ℚ) : List ℚ :=
  List.zipWith (fun x y => x * s + y) a b

/-- Embedding of `Accelerate.UpdateFuzzyWeights` (`accelerate_arm64.go`):
step 1 writes `beta * fi` into the `weights` buffer (`vDSP_vsmulD` with
destination `weights`); step 2 computes `weights*(1-beta) + weights` where
both operands are the buffer already overwritten by step 1.  The original
weight values are never read after step 1. -/
def UpdateFuzzyWeights (weights fi : List ℚ) (beta : ℚ) : List ℚ :=
  let step1 := vsmulD (fi.take weights.length) beta
  vsmaD step1 (1 - beta) step1

end Accelerate

/-- The prototype invariant maintained by learning: a category prototype for
feature count `M` has length `2M`, components in `[0,1]`, and L1 norm at
most `M`. -/
def GoodProto (M : ℕ) (w : List ℚ) : Prop :=
  w.length = 2 * M ∧ (∀ v ∈ w, 0 ≤ v ∧ v ≤ 1) ∧ w.sum ≤ (M : ℚ)

/-- A sequence of `Fit` calls, keeping only the final engine state. -/
def FitList (f : FuzzyART) (xs : List (List ℚ)) : FuzzyART :=
  xs.foldl (fun g x => (Fit g x).2.2) f

/-- A fresh engine with the scenario parameters of the spec
(`rho = 1`, `alpha = 1/100`, `beta = 1`, one feature). -/
def engineEmpty : FuzzyART :=
  { rho := 1, alpha := 1/100, beta := 1, M := 1, W := [] }

/-- The engine after one bootstrap `Fit` of `[1/2]`: a single category whose
prototype is the complement-coded input. -/
def engineOne : FuzzyART :=
  { rho := 1, alpha := 1/100, beta := 1, M := 1, W := [[1/2, 1/2]] }

/-- An engine with two learned categories, used to exercise the scoring and
ordering phase. -/
def engineTwo : FuzzyART :=
  { rho := 1/2, alpha := 1/100, beta := 1, M := 1, W := [[1/2, 1/2], [0, 1]] }

/-! ### Basic kernel lemmas -/

/-- The portable kernel returns the elementwise minimum, its sum, and the
sum of the weight entries it visited. -/
theorem fin_eq (A w : List ℚ) :
    generic.FuzzyIntersectionNorm A w =
      (List.zipWith min A w, (List.zipWith min A w).sum,
       (List.zipWith (fun _ y => y) A w).sum) := by
  induction A generalizing w with
  | nil => cases w <;> simp [generic.FuzzyIntersectionNorm]
  | cons a as ih =>
    cases w with
    | nil => simp [generic.FuzzyIntersectionNorm]
    | cons b bs => simp [generic.FuzzyIntersectionNorm, ih]

/-- On equal-length vectors the weight-entry sum visited by the kernel is
just the sum of the weights. -/
theorem zipWith_snd_self {A w : List ℚ} (h : A.length = w.length) :
    List.zipWith (fun _ y => y) A w = w := by
  induction A generalizing w with
  | nil => cases w with
    | nil => simp
    | cons b bs => simp at h
  | cons a as ih =>
    cases w with
    | nil => simp at h
    | cons b bs =>
      simp only [List.length_cons, Nat.succ.injEq] at h
      simp [ih h]

theorem complementCode_length (a : List ℚ) :
    (complementCode a).length = 2 * a.length := by
  simp [complementCode]
  ring

theorem map_one_sub_sum (a : List ℚ) :
    (a.map (fun v => 1 - v)).sum = a.length - a.sum := by
  induction a with
  | nil => simp
  | cons v vs ih =>
    simp [ih]
    ring

theorem complementCode_sum (a : List ℚ) :
    (complementCode a).sum = a.length := by
  simp [complementCode, map_one_sub_sum]

theorem complementCode_getD (a : List ℚ) (i : ℕ) (h : i < a.length) :
    (complementCode a).getD i 0 = a.getD i 0 ∧
    (complementCode a).getD (i + a.length) 0 = 1 - a.getD i 0 := by
  constructor
  · simp [complementCode, List.getD_eq_getElem?_getD, List.getElem?_append_left h]
  · have h2 : a.length ≤ i + a.length := Nat.le_add_left _ _
    simp [complementCode, List.getD_eq_getElem?_getD, List.getElem?_append_right h2,
      List.getElem?_map, List.getElem?_eq_getElem h]

/-- Components of a complement-coded vector of a `[0,1]`-valued input are
themselves in `[0,1]`. -/
theorem complementCode_mem_unit {a : List ℚ} (ha : ∀ v ∈ a, 0 ≤ v ∧ v ≤ 1) :
    ∀ v ∈ complementCode a, 0 ≤ v ∧ v ≤ 1 := by
  intro v hv
  rcases List.mem_append.1 hv with h | h
  · exact ha v h
  · rcases List.mem_map.1 h with ⟨u, hu, rfl⟩
    have := ha u hu
    constructor <;> linarith [this.1, this.2]

/-! ### The decision walk -/

/-- If every record of the activation list fails the vigilance test, the
walk exhausts the list, appends the input as a new category, and returns
the accumulated maximum resonance together with the new index. -/
theorem resonateWalk_all_fail (f : FuzzyART) (A : List ℚ) (aNorm : ℚ)
    (T : List fuzzyActivation) (m : ℚ)
    (hT : ∀ t ∈ T, resonance t.fiNorm aNorm < f.rho) :
    resonateWalk f A aNorm T m =
      (T.foldl (fun acc t => max acc (resonance t.fiNorm aNorm)) m,
       f.W.length, f.W ++ [A]) := by
  induction T generalizing m with
  | nil => simp [resonateWalk, appendNewCategory]
  | cons t ts ih =>
    have ht := hT t (List.mem_cons_self t ts)
    have : ¬ f.rho ≤ resonance t.fiNorm aNorm := not_le.2 ht
    simp only [resonateWalk, this, if_false]
    exact ih _ (fun u hu => hT u (List.mem_cons_of_mem t hu))

/-- The first record passing the vigilance test wins: the walk returns its
resonance and index and updates exactly that category's weights. -/
theorem resonateWalk_first_win (f : FuzzyART) (A : List ℚ) (aNorm : ℚ)
    (pre : List fuzzyActivation) (t : fuzzyActivation)
    (post : List fuzzyActivation) (m : ℚ)
    (hpre : ∀ u ∈ pre, resonance u.fiNorm aNorm < f.rho)
    (ht : f.rho ≤ resonance t.fiNorm aNorm) :
    resonateWalk f A aNorm (pre ++ t :: post) m =
      (resonance t.fiNorm aNorm, t.j,
       f.W.set t.j (generic.UpdateFuzzyWeights (f.W.getD t.j []) t.fi f.beta)) := by
  induction pre generalizing m with
  | nil => simp [resonateWalk, ht]
  | cons u us ih =>
    have hu := hpre u (List.mem_cons_self u us)
    have : ¬ f.rho ≤ resonance u.fiNorm aNorm := not_le.2 hu
    simp only [List.cons_append, resonateWalk, this, if_false]
    exact ih _ (fun v hv => hpre v (List.mem_cons_of_mem u hv))

/-! ### The scoring phase -/

/-- Members of the scored-and-sorted activation list are exactly the
records of the categories of the weight matrix. -/
theorem mem_activateCategories {f : FuzzyART} {A : List ℚ} {t : fuzzyActivation} :
    t ∈ activateCategories f A ↔
      ∃ j, ∃ _ : j < f.W.length, t = mkActivation f.alpha A j (f.W.getD j []) := by
  unfold activateCategories sortCategoriesByActivation
  rw [List.mem_mergeSort, List.mem_map]
  constructor
  · rintro ⟨⟨i, w⟩, hp, rfl⟩
    have hw : f.W[i]? = some w := List.mk_mem_enum_iff_getElem?.1 hp
    obtain ⟨hi, hgw⟩ := List.getElem?_eq_some_iff.1 hw
    refine ⟨i, hi, ?_⟩
    have : f.W.getD i [] = w := by
      simp [List.getD_eq_getElem?_getD, hw]
    rw [this]
  · rintro ⟨j, hj, rfl⟩
    refine ⟨(j, f.W.getD j []), List.mk_mem_enum_iff_getElem?.2 ?_, rfl⟩
    simp [List.getD_eq_getElem?_getD, List.getElem?_eq_getElem hj]

theorem activationLE_trans (a b c : fuzzyActivation) :
    activationLE a b → activationLE b c → activationLE a c := by
  simp only [activationLE]
  split_ifs <;> simp only [decide_eq_true_eq] <;> intro p q <;>
    first
    | omega
    | linarith
    | simp_all

theorem activationLE_total (a b : fuzzyActivation) :
    activationLE a b || activationLE b a := by
  simp only [activationLE]
  by_cases h : a.activation = b.activation
  · rw [if_pos h, if_pos h.symm]
    rcases Nat.le_total a.j b.j with h0 | h0 <;> simp [h0]
  · have h' : ¬ b.activation = a.activation := fun hh => h hh.symm
    rw [if_neg h, if_neg h']
    rcases lt_or_gt_of_ne h with hlt | hgt
    · simp [hlt]
    · simp [hgt]

/-- The scored records carry pairwise-distinct category indices. -/
theorem activateCategories_pairwise_ne (f : FuzzyART) (A : List ℚ) :
    (activateCategories f A).Pairwise (fun a b => a.j ≠ b.j) := by
  have hperm : List.Perm (activateCategories f A)
      (f.W.enum.map (fun p => mkActivation f.alpha A p.1 p.2)) :=
    List.mergeSort_perm _ _
  rw [List.Perm.pairwise_iff (fun h e => h e.symm) hperm]
  rw [List.pairwise_iff_getElem]
  intro i j hi hj hij
  simp only [List.length_map, List.enum_length] at hi hj
  simp only [List.getElem_map, List.enum_eq_enumFrom, List.getElem_enumFrom, mkActivation]
  simp only [Nat.zero_add]
  omega

/-- The sorted activation list is strictly ordered: descending activation,
with ties broken by ascending category index. -/
theorem activateCategories_pairwise_sorted (f : FuzzyART) (A : List ℚ) :
    (activateCategories f A).Pairwise
      (fun a b => b.activation < a.activation ∨
        (a.activation = b.activation ∧ a.j < b.j)) := by
  have hs : (activateCategories f A).Pairwise (fun a b => activationLE a b) := by
    unfold activateCategories sortCategoriesByActivation
    exact List.sorted_mergeSort activationLE_trans activationLE_total _
  have hne := activateCategories_pairwise_ne f A
  refine (hs.and hne).imp ?_
  rintro a b ⟨hle, hne'⟩
  simp only [activationLE] at hle
  by_cases h : a.activation = b.activation
  · rw [if_pos h] at hle
    exact Or.inr ⟨h, lt_of_le_of_ne (by simpa using hle) hne'⟩
  · rw [if_neg h] at hle
    exact Or.inl (by simpa using hle)

/-! ### Pointwise order lemmas -/

theorem forall₂_le_sum {l₁ l₂ : List ℚ} (h : List.Forall₂ (· ≤ ·) l₁ l₂) :
    l₁.sum ≤ l₂.sum := by
  induction h with
  | nil => simp
  | cons h₀ _ ih =>
    simp only [List.sum_cons]
    exact add_le_add h₀ ih

theorem forall₂_le_sum_eq {l₁ l₂ : List ℚ} (h : List.Forall₂ (· ≤ ·) l₁ l₂)
    (hsum : l₁.sum = l₂.sum) : l₁ = l₂ := by
  induction h with
  | nil => rfl
  | @cons a b as bs h₀ h₁ ih =>
    have hs : as.sum ≤ bs.sum := forall₂_le_sum h₁
    simp only [List.sum_cons] at hsum
    have ha : a = b := by linarith
    subst ha
    have : as.sum = bs.sum := by linarith
    rw [ih this]

theorem forall₂_le_mem_bound {l₁ l₂ : List ℚ} {c : ℚ}
    (h : List.Forall₂ (· ≤ ·) l₁ l₂) (hb : ∀ v ∈ l₂, v ≤ c) :
    ∀ v ∈ l₁, v ≤ c := by
  induction h with
  | nil => simp
  | @cons a b as bs h₀ _ ih =>
    intro v hv
    rcases List.mem_cons.1 hv with rfl | hv
    · exact le_trans h₀ (hb b (List.mem_cons_self b bs))
    · exact ih (fun u hu => hb u (List.mem_cons_of_mem b hu)) v hv

theorem forall₂_le_trans {l₁ l₂ l₃ : List ℚ}
    (h1 : List.Forall₂ (· ≤ ·) l₁ l₂) (h2 : List.Forall₂ (· ≤ ·) l₂ l₃) :
    List.Forall₂ (· ≤ ·) l₁ l₃ := by
  induction h1 generalizing l₃ with
  | nil => cases h2; exact List.Forall₂.nil
  | @cons a b as bs h₀ _ ih =>
    cases h2 with
    | cons h₂ h₃ => exact List.Forall₂.cons (le_trans h₀ h₂) (ih h₃)

theorem zipWith_min_le_left {A w : List ℚ} (h : A.length = w.length) :
    List.Forall₂ (· ≤ ·) (List.zipWith min A w) A := by
  induction A generalizing w with
  | nil => simp
  | cons a as ih =>
    cases w with
    | nil => simp at h
    | cons b bs =>
      simp only [List.length_cons, Nat.succ.injEq] at h
      exact List.Forall₂.cons (min_le_left a b) (ih h)

theorem zipWith_min_le_right {A w : List ℚ} (h : A.length = w.length) :
    List.Forall₂ (· ≤ ·) (List.zipWith min A w) w := by
  induction A generalizing w with
  | nil =>
    cases w with
    | nil => simp
    | cons b bs => simp at h
  | cons a as ih =>
    cases w with
    | nil => simp at h
    | cons b bs =>
      simp only [List.length_cons, Nat.succ.injEq] at h
      exact List.Forall₂.cons (min_le_right a b) (ih h)

theorem zipWith_min_eq_left_iff {A w : List ℚ} (h : A.length = w.length) :
    List.zipWith min A w = A ↔ List.Forall₂ (· ≤ ·) A w := by
  induction A generalizing w with
  | nil =>
    cases w with
    | nil => simp
    | cons b bs => simp at h
  | cons a as ih =>
    cases w with
    | nil => simp at h
    | cons b bs =>
      simp only [List.length_cons, Nat.succ.injEq] at h
      simp only [List.zipWith_cons_cons, List.cons.injEq, List.forall₂_cons]
      rw [min_eq_left_iff, ih h]

theorem zipWith_min_sum_eq_iff {A w : List ℚ} (h : A.length = w.length) :
    (List.zipWith min A w).sum = A.sum ↔ List.Forall₂ (· ≤ ·) A w := by
  constructor
  · intro hsum
    have := forall₂_le_sum_eq (zipWith_min_le_left h) hsum
    exact (zipWith_min_eq_left_iff h).1 this
  · intro hf
    rw [(zipWith_min_eq_left_iff h).2 hf]

theorem update_forall₂_le {w fi : List ℚ} {beta : ℚ} (h0 : 0 ≤ beta)
    (hfi : List.Forall₂ (· ≤ ·) fi w) :
    List.Forall₂ (· ≤ ·) (generic.UpdateFuzzyWeights w fi beta) w := by
  induction hfi with
  | nil => simp [generic.UpdateFuzzyWeights]
  | @cons a b as bs h₀ _ ih =>
    refine List.Forall₂.cons ?_ ih
    show beta * a + (1 - beta) * b ≤ b
    nlinarith [mul_le_mul_of_nonneg_left h₀ h0]

theorem update_mem_nonneg {w fi : List ℚ} {beta : ℚ} (h0 : 0 ≤ beta) (h1 : beta ≤ 1)
    (hw : ∀ v ∈ w, 0 ≤ v) (hfi : ∀ v ∈ fi, 0 ≤ v) :
    ∀ v ∈ generic.UpdateFuzzyWeights w fi beta, 0 ≤ v := by
  induction w generalizing fi with
  | nil => simp [generic.UpdateFuzzyWeights]
  | cons a as ih =>
    cases fi with
    | nil => simp [generic.UpdateFuzzyWeights]
    | cons b bs =>
      intro v hv
      simp only [generic.UpdateFuzzyWeights, List.zipWith_cons_cons, List.mem_cons] at hv
      rcases hv with rfl | hv
      · have ha := hw a (List.mem_cons_self a as)
        have hb := hfi b (List.mem_cons_self b bs)
        nlinarith
      · exact ih (fun u hu => hw u (List.mem_cons_of_mem a hu))
          (fun u hu => hfi u (List.mem_cons_of_mem b hu)) v hv

theorem zipWith_min_mem_nonneg {A w : List ℚ}
    (hA : ∀ v ∈ A, 0 ≤ v) (hw : ∀ v ∈ w, 0 ≤ v) :
    ∀ v ∈ List.zipWith min A w, 0 ≤ v := by
  induction A generalizing w with
  | nil => simp
  | cons a as ih =>
    cases w with
    | nil => simp
    | cons b bs =>
      intro v hv
      rcases List.mem_cons.1 hv with rfl | hv
      · exact le_min (hA a (List.mem_cons_self a as)) (hw b (List.mem_cons_self b bs))
      · exact ih (fun u hu => hA u (List.mem_cons_of_mem a hu))
          (fun u hu => hw u (List.mem_cons_of_mem b hu)) v hv

theorem mkActivation_eq (alpha : ℚ) (A : List ℚ) (j : ℕ) (w : List ℚ) :
    mkActivation alpha A j w =
      ⟨List.zipWith min A w, (List.zipWith min A w).sum,
       (List.zipWith (fun _ y => y) A w).sum,
       (List.zipWith min A w).sum /
         (alpha + (List.zipWith (fun _ y => y) A w).sum), j⟩ := by
  simp [mkActivation, fin_eq]

/-! ### Claim theorems -/

/-- C1: the decision walk visits the priority-ordered records in order,
computing for each the resonance `fiNorm / aNorm` with `aNorm = sum A`
(`1` when both are zero); the first record whose resonance reaches `rho`
wins, its prototype is updated in place to `beta*fi + (1-beta)*W`
componentwise, and its resonance and index are returned; if no record
qualifies, the complement-coded input is appended as a new prototype and
the new index is returned. -/
theorem resonateOrReset_decision_walk (f : FuzzyART) (A : List ℚ)
    (T : List fuzzyActivation) :
    (∀ fiN aN : ℚ,
      resonance fiN aN = if fiN = 0 ∧ aN = 0 then 1 else fiN / aN) ∧
    (∀ pre t post, T = pre ++ t :: post →
      (∀ u ∈ pre, resonance u.fiNorm A.sum < f.rho) →
      f.rho ≤ resonance t.fiNorm A.sum →
      resonateOrReset f A T =
        (resonance t.fiNorm A.sum, t.j,
         { f with W := (f.W.set t.j
            (List.zipWith (fun wi fii => f.beta * fii + (1 - f.beta) * wi)
              (f.W.getD t.j []) t.fi)) })) ∧
    ((∀ t ∈ T, resonance t.fiNorm A.sum < f.rho) →
      (resonateOrReset f A T).2.1 = f.W.length ∧
      (resonateOrReset f A T).2.2.W = f.W ++ [A]) := by
  refine ⟨fun fiN aN => rfl, ?_, ?_⟩
  · rintro pre t post rfl hpre ht
    unfold resonateOrReset
    rw [show generic.SumFloat64 A = A.sum from rfl,
      resonateWalk_first_win f A A.sum pre t post 0 hpre ht]
    rfl
  · intro hT
    unfold resonateOrReset
    rw [show generic.SumFloat64 A = A.sum from rfl,
      resonateWalk_all_fail f A A.sum T 0 hT]
    exact ⟨rfl, rfl⟩

/-- Witness for C1: on the one-category engine and its own prototype as
input, the single record resonates perfectly and the walk returns
resonance 1 for category 0, leaving the prototype unchanged
(`beta = 1` replaces it by the fuzzy intersection, which equals it). -/
theorem resonateOrReset_decision_walk_witness :
    resonateOrReset engineOne [1/2, 1/2]
        (activateCategories engineOne [1/2, 1/2]) = (1, 0, engineOne) := by
  have hT : activateCategories engineOne [1/2, 1/2] =
      [mkActivation (1/100) [1/2, 1/2] 0 [1/2, 1/2]] := by
    simp [activateCategories, sortCategoriesByActivation, engineOne, List.mergeSort]
  have h := (resonateOrReset_decision_walk engineOne [1/2, 1/2]
      (activateCategories engineOne [1/2, 1/2])).2.1
      [] (mkActivation (1/100) [1/2, 1/2] 0 [1/2, 1/2]) []
      (by rw [hT]; rfl) (by simp)
      (by norm_num [resonance, mkActivation_eq, engineOne])
  rw [h]
  norm_num [resonance, mkActivation_eq, engineOne]

/-- C2: the scoring phase computes for category `j` the activation
`fiNorm_j / (alpha + wNorm_j)`, with `fiNorm_j` the L1 norm of the
elementwise minimum between the input and prototype `j` and `wNorm_j` the
L1 norm of prototype `j`; every category receives a record, and the
resulting list is ordered by strictly descending activation with ties
broken by ascending category index. -/
theorem activateCategories_spec (f : FuzzyART) (A : List ℚ)
    (hW : ∀ w ∈ f.W, w.length = A.length) :
    (∀ t ∈ activateCategories f A,
      t.j < f.W.length ∧
      t.fiNorm = (List.zipWith min A (f.W.getD t.j [])).sum ∧
      t.wNorm = (f.W.getD t.j []).sum ∧
      t.activation = t.fiNorm / (f.alpha + t.wNorm)) ∧
    (∀ j, j < f.W.length → ∃ t ∈ activateCategories f A, t.j = j) ∧
    (activateCategories f A).Pairwise
      (fun a b => b.activation < a.activation ∨
        (a.activation = b.activation ∧ a.j < b.j)) := by
  refine ⟨?_, ?_, activateCategories_pairwise_sorted f A⟩
  · intro t ht
    obtain ⟨j, hj, rfl⟩ := mem_activateCategories.1 ht
    have hmem : f.W.getD j [] ∈ f.W := by
      rw [List.getD_eq_getElem?_getD, List.getElem?_eq_getElem hj]
      exact List.getElem_mem hj
    have hlen : A.length = (f.W.getD j []).length := (hW _ hmem).symm
    rw [mkActivation_eq]
    refine ⟨hj, rfl, ?_, rfl⟩
    rw [zipWith_snd_self hlen]
  · intro j hj
    exact ⟨mkActivation f.alpha A j (f.W.getD j []),
      mem_activateCategories.2 ⟨j, hj, rfl⟩, rfl⟩

/-- Witness for C2 on the two-category engine and a complement-coded
input of matching length. -/
theorem activateCategories_spec_witness :
    (∀ w ∈ engineTwo.W, w.length = ([0, 1] : List ℚ).length) ∧
    (activateCategories engineTwo [0, 1]).Pairwise
      (fun a b => b.activation < a.activation ∨
        (a.activation = b.activation ∧ a.j < b.j)) := by
  refine ⟨by simp [engineTwo], ?_⟩
  exact (activateCategories_spec engineTwo [0, 1] (by simp [engineTwo])).2.2

/-- C3 evaluation: the SIMD backends do not agree with the portable
backend.  The Accelerate weight update overwrites the weights buffer with
`beta*fi` before reading it, returning `beta*(2-beta)*fi` instead of
`beta*fi + (1-beta)*W`; the AVX-512 wrapper rounds the length up to a
multiple of 8, so the kernel also sums memory cells beyond the end of the
slice when the length is not a multiple of 8. -/
theorem backend_divergence :
    Accelerate.UpdateFuzzyWeights [1] [1] (1/2) = [3/4] ∧
    generic.UpdateFuzzyWeights [1] [1] (1/2) = [1] ∧
    ([(3:ℚ)/4] : List ℚ) ≠ [1] ∧
    AVX512.SumFloat64 [1] [1, 0, 0, 0, 0, 0, 0] = 2 ∧
    generic.SumFloat64 [1] = 1 ∧
    (2:ℚ) ≠ 1 := by
  refine ⟨?_, ?_, by norm_num, ?_, by norm_num [generic.SumFloat64], by norm_num⟩
  · norm_num [Accelerate.UpdateFuzzyWeights, Accelerate.vsmulD, Accelerate.vsmaD]
  · norm_num [generic.UpdateFuzzyWeights]
  · norm_num [AVX512.SumFloat64, AVX512.avx512_sum, AVX512.align64]

/-- Counterexample to C4: with feature count 0 — violating the claimed
bound `M > 0` — and in-range `rho`, `alpha`, `beta`, construction succeeds
and returns an engine instead of the error the claim requires. -/
theorem NewFuzzyART_M_unchecked :
    NewFuzzyART 0 (1/2) (1/100) 1 =
      .ok { rho := 1/2, alpha := 1/100, beta := 1, M := 0, W := [] } := by
  simp only [NewFuzzyART]
  norm_num

/-- C4 (amended): construction returns an error naming the offending
parameter and its value iff `rho ∉ [0,1]`, `alpha ≤ 0`, or `beta ∉ (0,1]`;
the feature count is stored unvalidated, and whenever the three bounds hold
an engine with an empty weight matrix is returned. -/
theorem NewFuzzyART_validation (L : ℕ) (rho alpha beta : ℚ) :
    ((∃ e, NewFuzzyART L rho alpha beta = .error e) ↔
      ¬(0 ≤ rho ∧ rho ≤ 1 ∧ 0 < alpha ∧ 0 < beta ∧ beta ≤ 1)) ∧
    (∀ s v, NewFuzzyART L rho alpha beta = .error (s, v) →
      (s = "rho" ∧ v = rho ∧ (rho < 0 ∨ 1 < rho)) ∨
      (s = "alpha" ∧ v = alpha ∧ alpha ≤ 0) ∨
      (s = "beta" ∧ v = beta ∧ (beta ≤ 0 ∨ 1 < beta))) ∧
    ((0 ≤ rho ∧ rho ≤ 1 ∧ 0 < alpha ∧ 0 < beta ∧ beta ≤ 1) →
      NewFuzzyART L rho alpha beta =
        .ok { rho := rho, alpha := alpha, beta := beta, M := L, W := [] }) := by
  have hok : (0 ≤ rho ∧ rho ≤ 1 ∧ 0 < alpha ∧ 0 < beta ∧ beta ≤ 1) →
      NewFuzzyART L rho alpha beta =
        .ok { rho := rho, alpha := alpha, beta := beta, M := L, W := [] } := by
    rintro ⟨hr0, hr1, ha, hb0, hb1⟩
    unfold NewFuzzyART
    rw [if_neg (by push_neg; exact ⟨hr0, hr1⟩), if_neg (not_le.2 ha),
      if_neg (by push_neg; exact ⟨hb0, hb1⟩)]
  refine ⟨⟨?_, ?_⟩, ?_, hok⟩
  · rintro ⟨e, he⟩ hin
    rw [hok hin] at he
    cases he
  · intro hnot
    unfold NewFuzzyART
    by_cases h1 : rho < 0 ∨ 1 < rho
    · rw [if_pos h1]
      exact ⟨_, rfl⟩
    · by_cases h2 : alpha ≤ 0
      · rw [if_neg h1, if_pos h2]
        exact ⟨_, rfl⟩
      · by_cases h3 : beta ≤ 0 ∨ 1 < beta
        · rw [if_neg h1, if_neg h2, if_pos h3]
          exact ⟨_, rfl⟩
        · exfalso
          apply hnot
          push_neg at h1 h2 h3
          exact ⟨h1.1, h1.2, h2, h3.1, h3.2⟩
  · intro s v he
    unfold NewFuzzyART at he
    by_cases h1 : rho < 0 ∨ 1 < rho
    · rw [if_pos h1] at he
      simp only [Except.error.injEq, Prod.mk.injEq] at he
      exact Or.inl ⟨he.1.symm, he.2.symm, h1⟩
    · by_cases h2 : alpha ≤ 0
      · rw [if_neg h1, if_pos h2] at he
        simp only [Except.error.injEq, Prod.mk.injEq] at he
        exact Or.inr (Or.inl ⟨he.1.symm, he.2.symm, h2⟩)
      · by_cases h3 : beta ≤ 0 ∨ 1 < beta
        · rw [if_neg h1, if_neg h2, if_pos h3] at he
          simp only [Except.error.injEq, Prod.mk.injEq] at he
          exact Or.inr (Or.inr ⟨he.1.symm, he.2.symm, h3⟩)
        · rw [if_neg h1, if_neg h2, if_neg h3] at he
          cases he

/-- Witness for the amended C4 at the spec's recommended parameters. -/
theorem NewFuzzyART_validation_witness :
    NewFuzzyART 2 (86/100) (1/100) 1 =
      .ok { rho := 86/100, alpha := 1/100, beta := 1, M := 2, W := [] } :=
  (NewFuzzyART_validation 2 (86/100) (1/100) 1).2.2 (by norm_num)

/-- Counterexample to C5: on the one-category engine with `rho = 1`,
fitting an input matching no prototype commits a new category (the matrix
grows from one to two prototypes) yet returns resonance 1/2, not 0. -/
theorem fit_commit_nonzero_resonance :
    Fit engineOne [0] = (1/2, 1, { engineOne with W := [[1/2, 1/2], [0, 1]] }) ∧
    ((1:ℚ)/2) ≠ 0 := by
  constructor
  · simp [Fit, complementCode, activateCategories, sortCategoriesByActivation,
      resonateOrReset, resonateWalk, appendNewCategory, generic.SumFloat64,
      generic.FuzzyIntersectionNorm, mkActivation, resonance, engineOne,
      List.mergeSort]
    norm_num [min_def]
  · norm_num

/-- C5 (amended): when the walk exhausts the priority list with no record
reaching `rho`, the new category's index is returned together with the
running maximum of the rejected records' resonances (0 when the engine had
no categories), not necessarily 0; a Predict call with learn = true takes
exactly the Fit path. -/
theorem fit_exhausted_returns_max (f : FuzzyART) (x : List ℚ)
    (h : ∀ t ∈ activateCategories f (complementCode x),
      resonance t.fiNorm (complementCode x).sum < f.rho) :
    Fit f x =
      ((activateCategories f (complementCode x)).foldl
         (fun acc t => max acc (resonance t.fiNorm (complementCode x).sum)) 0,
       f.W.length, { f with W := f.W ++ [complementCode x] }) ∧
    Predict f x true = some (Fit f x) := by
  constructor
  · simp only [Fit]
    unfold resonateOrReset
    rw [show generic.SumFloat64 (complementCode x) = (complementCode x).sum from rfl,
      resonateWalk_all_fail f (complementCode x) (complementCode x).sum _ 0 h]
  · rfl

/-- Witness for the amended C5 on the one-category engine. -/
theorem fit_exhausted_returns_max_witness :
    (∀ t ∈ activateCategories engineOne (complementCode [0]),
      resonance t.fiNorm (complementCode [0]).sum < engineOne.rho) ∧
    Predict engineOne [0] true = some (Fit engineOne [0]) := by
  have hyp : ∀ t ∈ activateCategories engineOne (complementCode [0]),
      resonance t.fiNorm (complementCode [0]).sum < engineOne.rho := by
    simp [activateCategories, sortCategoriesByActivation, complementCode,
      engineOne, List.mergeSort, mkActivation_eq]
    norm_num [resonance, min_def]
  exact ⟨hyp, (fit_exhausted_returns_max engineOne [0] hyp).2⟩

/-- C6: complement coding doubles the vector with its componentwise
complement, and the total sum is exactly the feature count. -/
theorem complementCode_spec (a : List ℚ) (_ha : ∀ v ∈ a, 0 ≤ v ∧ v ≤ 1) :
    (complementCode a).length = 2 * a.length ∧
    (∀ i, i < a.length →
      (complementCode a).getD i 0 = a.getD i 0 ∧
      (complementCode a).getD (i + a.length) 0 = 1 - a.getD i 0) ∧
    (complementCode a).sum = a.length :=
  ⟨complementCode_length a, fun i hi => complementCode_getD a i hi,
    complementCode_sum a⟩

/-- Witness for C6 on a concrete two-feature input. -/
theorem complementCode_spec_witness :
    (∀ v ∈ [(1:ℚ)/2, 1/4], 0 ≤ v ∧ v ≤ 1) ∧
    (complementCode [(1:ℚ)/2, 1/4]).length = 4 ∧
    (complementCode [(1:ℚ)/2, 1/4]).sum = 2 := by
  have h := complementCode_spec [(1:ℚ)/2, 1/4] (by norm_num)
  refine ⟨by norm_num, ?_, ?_⟩
  · rw [h.1]
    simp
  · rw [h.2.2]
    norm_num

/-- Outcome analysis of the decision walk: either some visited record wins
and the result updates exactly that record's category, or the walk falls
through and appends the input as a new category. -/
theorem resonateWalk_cases (f : FuzzyART) (A : List ℚ) (aNorm : ℚ) :
    ∀ (T : List fuzzyActivation) (m : ℚ),
    (∃ t ∈ T, resonateWalk f A aNorm T m =
      (resonance t.fiNorm aNorm, t.j,
       f.W.set t.j (generic.UpdateFuzzyWeights (f.W.getD t.j []) t.fi f.beta))) ∨
    ((resonateWalk f A aNorm T m).2.1 = f.W.length ∧
     (resonateWalk f A aNorm T m).2.2 = f.W ++ [A])
  | [], m => Or.inr ⟨rfl, rfl⟩
  | t :: ts, m => by
    by_cases h : f.rho ≤ resonance t.fiNorm aNorm
    · exact Or.inl ⟨t, List.mem_cons_self t ts, by simp [resonateWalk, h]⟩
    · have hstep : resonateWalk f A aNorm (t :: ts) m =
          resonateWalk f A aNorm ts (max m (resonance t.fiNorm aNorm)) := by
        simp [resonateWalk, h]
      rcases resonateWalk_cases f A aNorm ts (max m (resonance t.fiNorm aNorm)) with
        ⟨u, hu, heq⟩ | ⟨h1, h2⟩
      · exact Or.inl ⟨u, List.mem_cons_of_mem t hu, by rw [hstep, heq]⟩
      · exact Or.inr ⟨by rw [hstep, h1], by rw [hstep, h2]⟩

/-- C8: each `Fit` call changes the weight matrix in exactly one of two
ways — in-place update of the single returned category with every other
prototype untouched and the length unchanged, or the append of exactly one
new prototype equal to the complement-coded input with every pre-existing
prototype untouched.  Nothing is ever deleted. -/
theorem fit_frame (f : FuzzyART) (x : List ℚ) :
    ((Fit f x).2.2.W.length = f.W.length ∧
     (Fit f x).2.1 < f.W.length ∧
     (∀ k, k ≠ (Fit f x).2.1 →
       (Fit f x).2.2.W.getD k [] = f.W.getD k [])) ∨
    ((Fit f x).2.2.W = f.W ++ [complementCode x] ∧
     (Fit f x).2.1 = f.W.length) := by
  have hfit : Fit f x =
      (let r := resonateWalk f (complementCode x)
        (generic.SumFloat64 (complementCode x))
        (activateCategories f (complementCode x)) 0
       (r.1, r.2.1, { f with W := r.2.2 })) := rfl
  rcases resonateWalk_cases f (complementCode x)
      (generic.SumFloat64 (complementCode x))
      (activateCategories f (complementCode x)) 0 with ⟨t, ht, heq⟩ | ⟨h1, h2⟩
  · obtain ⟨j, hj, rfl⟩ := mem_activateCategories.1 ht
    left
    rw [hfit, heq]
    simp only [mkActivation_eq]
    refine ⟨by simp, hj, ?_⟩
    intro k hk
    simp only [List.getD_eq_getElem?_getD]
    rw [List.getElem?_set_ne (fun e => hk e.symm)]
  · right
    rw [hfit]
    exact ⟨h2, h1⟩

/-- Witness for C8: the frame property applied at a concrete engine and
input. -/
theorem fit_frame_witness :
    ((Fit engineOne [1/2]).2.2.W.length = engineOne.W.length ∧
     (Fit engineOne [1/2]).2.1 < engineOne.W.length ∧
     (∀ k, k ≠ (Fit engineOne [1/2]).2.1 →
       (Fit engineOne [1/2]).2.2.W.getD k [] = engineOne.W.getD k [])) ∨
    ((Fit engineOne [1/2]).2.2.W = engineOne.W ++ [complementCode [1/2]] ∧
     (Fit engineOne [1/2]).2.1 = engineOne.W.length) :=
  fit_frame engineOne [1/2]

/-- C10: with no learned categories, inference-only `Predict` reads the
head of the empty activation list — `none` in this total embedding, a
panic in the program — while `Fit` on the same engine is well defined and
bootstraps category 0. -/
theorem predict_empty_engine (f : FuzzyART) (a : List ℚ) (h : f.W = []) :
    Predict f a false = none ∧
    (Fit f a).2.1 = 0 ∧
    (Fit f a).2.2.W = [complementCode a] := by
  have hT : activateCategories f (complementCode a) = [] := by
    simp [activateCategories, sortCategoriesByActivation, h, List.mergeSort]
  refine ⟨?_, ?_, ?_⟩
  · simp [Predict, hT]
  · simp [Fit, resonateOrReset, hT, resonateWalk, appendNewCategory, h]
  · simp [Fit, resonateOrReset, hT, resonateWalk, appendNewCategory, h]

/-- Witness for C10 on the fresh scenario engine. -/
theorem predict_empty_engine_witness :
    engineEmpty.W = [] ∧ Predict engineEmpty [1/2] false = none :=
  ⟨rfl, (predict_empty_engine engineEmpty [1/2] rfl).1⟩

/-- With `rho = 1` and a sum-bounded prototype matrix, a record can reach
resonance 1 only if its prototype equals the complement-coded input, so
when the input matches no prototype every record fails the vigilance
test. -/
theorem all_fail_of_not_mem (f : FuzzyART) (x : List ℚ)
    (hrho : f.rho = 1)
    (hW : ∀ w ∈ f.W, w.length = 2 * x.length ∧ w.sum ≤ (x.length : ℚ))
    (hA : complementCode x ∉ f.W) :
    ∀ t ∈ activateCategories f (complementCode x),
      resonance t.fiNorm (complementCode x).sum < f.rho := by
  intro t ht
  obtain ⟨j, hj, rfl⟩ := mem_activateCategories.1 ht
  have hwmem : f.W.getD j [] ∈ f.W := by
    rw [List.getD_eq_getElem?_getD, List.getElem?_eq_getElem hj]
    exact List.getElem_mem hj
  obtain ⟨hwlen, hwsum⟩ := hW _ hwmem
  have hAlen : (complementCode x).length = 2 * x.length := complementCode_length x
  have hlen : (complementCode x).length = (f.W.getD j []).length := by
    rw [hAlen, hwlen]
  have hAsum : (complementCode x).sum = (x.length : ℚ) := complementCode_sum x
  rw [mkActivation_eq]
  show resonance (List.zipWith min (complementCode x) (f.W.getD j [])).sum
    (complementCode x).sum < f.rho
  rcases Nat.eq_zero_or_pos x.length with h0 | hpos
  · exfalso
    apply hA
    have hx : x = [] := List.eq_nil_of_length_eq_zero h0
    have hwnil : f.W.getD j [] = [] :=
      List.eq_nil_of_length_eq_zero (by rw [hwlen, h0])
    have : complementCode x = [] := by rw [hx]; rfl
    rw [this, ← hwnil]
    exact hwmem
  · have hApos : (0:ℚ) < (complementCode x).sum := by
      rw [hAsum]
      exact_mod_cast hpos
    have hle : (List.zipWith min (complementCode x) (f.W.getD j [])).sum ≤
        (complementCode x).sum := forall₂_le_sum (zipWith_min_le_left hlen)
    have hne : (List.zipWith min (complementCode x) (f.W.getD j [])).sum ≠
        (complementCode x).sum := by
      intro heq
      have hf : List.Forall₂ (· ≤ ·) (complementCode x) (f.W.getD j []) :=
        (zipWith_min_sum_eq_iff hlen).1 heq
      have hsle : (complementCode x).sum ≤ (f.W.getD j []).sum := forall₂_le_sum hf
      have hws : (complementCode x).sum = (f.W.getD j []).sum := by
        rw [hAsum] at hsle ⊢
        linarith
      have : complementCode x = f.W.getD j [] := forall₂_le_sum_eq hf hws
      exact hA (this ▸ hwmem)
    have hlt := lt_of_le_of_ne hle hne
    rw [resonance, if_neg (by rintro ⟨-, hz⟩; exact absurd hz (ne_of_gt hApos)), hrho]
    exact (div_lt_one hApos).2 hlt

/-- C7: with `rho = 1`, every `Fit` whose complement-coded input is not
identical to an existing prototype commits a new category, so the category
count strictly grows on every such call.  (The length and norm hypotheses
on the matrix hold for every engine reached by `Fit` calls on
length-`x.length` inputs, cf. the learning invariant.) -/
theorem fit_rho_one_grows (f : FuzzyART) (x : List ℚ)
    (hrho : f.rho = 1)
    (hW : ∀ w ∈ f.W, w.length = 2 * x.length ∧ w.sum ≤ (x.length : ℚ))
    (hA : complementCode x ∉ f.W) :
    (Fit f x).2.2.W = f.W ++ [complementCode x] ∧
    (Fit f x).2.2.W.length = f.W.length + 1 := by
  have hall := all_fail_of_not_mem f x hrho hW hA
  simp only [Fit]
  unfold resonateOrReset
  rw [show generic.SumFloat64 (complementCode x) = (complementCode x).sum from rfl,
    resonateWalk_all_fail f (complementCode x) (complementCode x).sum _ 0 hall]
  exact ⟨rfl, by simp⟩

/-- Witness for C7: a non-matching input on the one-category engine with
`rho = 1` grows the matrix to two categories. -/
theorem fit_rho_one_grows_witness :
    engineOne.rho = 1 ∧
    (∀ w ∈ engineOne.W, w.length = 2 * ([0] : List ℚ).length ∧
      w.sum ≤ ((([0] : List ℚ).length : ℕ) : ℚ)) ∧
    complementCode [0] ∉ engineOne.W ∧
    (Fit engineOne [0]).2.2.W.length = engineOne.W.length + 1 := by
  have h1 : engineOne.rho = 1 := rfl
  have h2 : ∀ w ∈ engineOne.W, w.length = 2 * ([0] : List ℚ).length ∧
      w.sum ≤ ((([0] : List ℚ).length : ℕ) : ℚ) := by
    simp [engineOne]
    norm_num
  have h3 : complementCode [0] ∉ engineOne.W := by
    simp [engineOne, complementCode]
  exact ⟨h1, h2, h3, (fit_rho_one_grows engineOne [0] h1 h2 h3).2⟩

/-- A `Fit` call only rewrites the weight matrix; the configuration scalars
and the feature count are untouched. -/
theorem fit_engine_fields (f : FuzzyART) (x : List ℚ) :
    (Fit f x).2.2.rho = f.rho ∧ (Fit f x).2.2.alpha = f.alpha ∧
    (Fit f x).2.2.beta = f.beta ∧ (Fit f x).2.2.M = f.M :=
  ⟨rfl, rfl, rfl, rfl⟩

/-- The weight matrix never shrinks across a `Fit` call. -/
theorem fit_W_length_le (f : FuzzyART) (x : List ℚ) :
    f.W.length ≤ (Fit f x).2.2.W.length := by
  have hfit : (Fit f x).2.2.W =
      (resonateWalk f (complementCode x) (generic.SumFloat64 (complementCode x))
        (activateCategories f (complementCode x)) 0).2.2 := rfl
  rcases resonateWalk_cases f (complementCode x)
      (generic.SumFloat64 (complementCode x))
      (activateCategories f (complementCode x)) 0 with ⟨t, ht, heq⟩ | ⟨h1, h2⟩
  · rw [hfit, heq]
    simp
  · rw [hfit, h2]
    simp

/-- One learning step preserves the prototype invariant, and every
pre-existing prototype is pointwise non-increasing across the step. -/
theorem fit_step_invariant (f : FuzzyART) (x : List ℚ)
    (hb0 : 0 < f.beta) (hb1 : f.beta ≤ 1)
    (hlen : x.length = f.M)
    (hx : ∀ v ∈ x, 0 ≤ v ∧ v ≤ 1)
    (hinv : ∀ w ∈ f.W, GoodProto f.M w) :
    (∀ w ∈ (Fit f x).2.2.W, GoodProto f.M w) ∧
    (∀ k, k < f.W.length →
      List.Forall₂ (· ≤ ·) ((Fit f x).2.2.W.getD k []) (f.W.getD k [])) := by
  have hAunit := complementCode_mem_unit hx
  have hAlen : (complementCode x).length = 2 * f.M := by
    rw [complementCode_length, hlen]
  have hAsum : (complementCode x).sum = (f.M : ℚ) := by
    rw [complementCode_sum, hlen]
  have hAgood : GoodProto f.M (complementCode x) := ⟨hAlen, hAunit, le_of_eq hAsum⟩
  have hfit : (Fit f x).2.2.W =
      (resonateWalk f (complementCode x) (generic.SumFloat64 (complementCode x))
        (activateCategories f (complementCode x)) 0).2.2 := rfl
  rcases resonateWalk_cases f (complementCode x)
      (generic.SumFloat64 (complementCode x))
      (activateCategories f (complementCode x)) 0 with ⟨t, ht, heq⟩ | ⟨h1, h2⟩
  · obtain ⟨j, hj, rfl⟩ := mem_activateCategories.1 ht
    have hWeq : (Fit f x).2.2.W =
        f.W.set j (generic.UpdateFuzzyWeights (f.W.getD j [])
          (List.zipWith min (complementCode x) (f.W.getD j [])) f.beta) := by
      rw [hfit, heq, mkActivation_eq]
    have hwmem : f.W.getD j [] ∈ f.W := by
      rw [List.getD_eq_getElem?_getD, List.getElem?_eq_getElem hj]
      exact List.getElem_mem hj
    obtain ⟨hwlen, hwunit, hwsum⟩ := hinv _ hwmem
    have hlenAw : (complementCode x).length = (f.W.getD j []).length := by
      rw [hAlen, hwlen]
    have hf₂ : List.Forall₂ (· ≤ ·)
        (List.zipWith min (complementCode x) (f.W.getD j [])) (f.W.getD j []) :=
      zipWith_min_le_right hlenAw
    have hupd : List.Forall₂ (· ≤ ·)
        (generic.UpdateFuzzyWeights (f.W.getD j [])
          (List.zipWith min (complementCode x) (f.W.getD j [])) f.beta)
        (f.W.getD j []) :=
      update_forall₂_le (le_of_lt hb0) hf₂
    have hgood : GoodProto f.M
        (generic.UpdateFuzzyWeights (f.W.getD j [])
          (List.zipWith min (complementCode x) (f.W.getD j [])) f.beta) := by
      refine ⟨?_, ?_, ?_⟩
      · rw [hupd.length_eq, hwlen]
      · intro v hv
        refine ⟨?_, ?_⟩
        · exact update_mem_nonneg (le_of_lt hb0) hb1
            (fun u hu => (hwunit u hu).1)
            (zipWith_min_mem_nonneg (fun u hu => (hAunit u hu).1)
              (fun u hu => (hwunit u hu).1)) v hv
        · exact forall₂_le_mem_bound hupd (fun u hu => (hwunit u hu).2) v hv
      · exact le_trans (forall₂_le_sum hupd) hwsum
    constructor
    · intro w' hw'
      rw [hWeq] at hw'
      rcases List.mem_or_eq_of_mem_set hw' with hmem | rfl
      · exact hinv w' hmem
      · exact hgood
    · intro k hk
      rw [hWeq]
      by_cases hkj : k = j
      · subst hkj
        rw [List.getD_eq_getElem?_getD, List.getElem?_set_self (by simpa using hk)]
        simpa using hupd
      · rw [List.getD_eq_getElem?_getD, List.getElem?_set_ne (fun e => hkj e.symm),
          ← List.getD_eq_getElem?_getD]
        exact List.forall₂_same.2 (fun v _ => le_refl v)
  · have hWeq : (Fit f x).2.2.W = f.W ++ [complementCode x] := by rw [hfit, h2]
    constructor
    · intro w' hw'
      rw [hWeq] at hw'
      rcases List.mem_append.1 hw' with hmem | hmem
      · exact hinv w' hmem
      · rw [List.mem_singleton.1 hmem]
        exact hAgood
    · intro k hk
      rw [hWeq, List.getD_eq_getElem?_getD, List.getElem?_append_left hk,
        ← List.getD_eq_getElem?_getD]
      exact List.forall₂_same.2 (fun v _ => le_refl v)

/-- C9: over any sequence of `Fit` calls on `[0,1]`-valued inputs of the
declared feature count, every prototype of the final engine still has
length `2M`, components in `[0,1]`, and L1 norm at most `M`, and each
initially-present prototype is pointwise non-increasing over the whole
sequence (each resonance update replaces `W` with
`beta*min(A,W) + (1-beta)*W ≤ W`). -/
theorem fit_sequence_monotone (f : FuzzyART) (xs : List (List ℚ))
    (hb0 : 0 < f.beta) (hb1 : f.beta ≤ 1)
    (hxs : ∀ x ∈ xs, x.length = f.M ∧ ∀ v ∈ x, 0 ≤ v ∧ v ≤ 1)
    (hinv : ∀ w ∈ f.W, GoodProto f.M w) :
    (∀ w ∈ (FitList f xs).W, GoodProto f.M w) ∧
    (∀ k, k < f.W.length →
      List.Forall₂ (· ≤ ·) ((FitList f xs).W.getD k []) (f.W.getD k [])) := by
  induction xs generalizing f with
  | nil =>
    exact ⟨hinv, fun k _ => List.forall₂_same.2 (fun v _ => le_refl v)⟩
  | cons x xs ih =>
    obtain ⟨hxlen, hxunit⟩ := hxs x (List.mem_cons_self x xs)
    have hstep := fit_step_invariant f x hb0 hb1 hxlen hxunit hinv
    have hbeta : (Fit f x).2.2.beta = f.beta := rfl
    have hM : (Fit f x).2.2.M = f.M := rfl
    have hfl : FitList f (x :: xs) = FitList (Fit f x).2.2 xs := rfl
    have hrec := ih (Fit f x).2.2 (by rw [hbeta]; exact hb0) (by rw [hbeta]; exact hb1)
      (fun y hy => by rw [hM]; exact hxs y (List.mem_cons_of_mem x hy))
      (fun w hw => by rw [hM] at *; exact hstep.1 w hw)
    refine ⟨?_, ?_⟩
    · intro w hw
      rw [hfl] at hw
      have := hrec.1 w hw
      rwa [hM] at this
    · intro k hk
      have hk' : k < (Fit f x).2.2.W.length :=
        lt_of_lt_of_le hk (fit_W_length_le f x)
      rw [hfl]
      exact forall₂_le_trans (hrec.2 k hk') (hstep.2 k hk)

/-- Witness for C9: one learning step on the one-category engine keeps the
prototype invariant. -/
theorem fit_sequence_monotone_witness :
    (∀ w ∈ engineOne.W, GoodProto engineOne.M w) ∧
    (∀ w ∈ (FitList engineOne [[0]]).W, GoodProto engineOne.M w) := by
  have hinv : ∀ w ∈ engineOne.W, GoodProto engineOne.M w := by
    intro w hw
    simp only [engineOne, List.mem_singleton] at hw
    subst hw
    refine ⟨rfl, ?_, by norm_num [engineOne]⟩
    intro v hv
    rcases List.mem_cons.1 hv with rfl | hv
    · norm_num
    · rcases List.mem_singleton.1 hv with rfl
      norm_num
  refine ⟨hinv, ?_⟩
  exact (fit_sequence_monotone engineOne [[0]]
    (by norm_num [engineOne]) (by norm_num [engineOne])
    (by intro y hy
        rcases List.mem_singleton.1 hy with rfl
        exact ⟨rfl, by norm_num⟩) hinv).1

end Art
